import Mathlib

/-! Verification of `Bio_Util.cpp`, a FASTA nucleotide-counting utility.

The program maps a FASTA file into memory, discovers record boundaries
(positions of the marker byte `>`) by scanning disjoint chunks of the file
concurrently, sorts the collected offsets together with the end-of-file
sentinel, and then, record by record, extracts the header line and tallies
the nucleotides G, C, A, T, N in the record body, writing one formatted
block per record to a shared output stream under a mutex.

This file is a shallow embedding of that program.  The mapped file is a
`List Char`; indexed reads `mem[i]` become `memAt`.  Loops become folds or
structural recursions.  The nondeterministic thread interleavings collapse
where the program itself makes them irrelevant: the boundary collection is
sorted afterwards, so it is modelled as the chunk-order concatenation of
per-chunk scans, and the mutex-guarded output writes are modelled by an
explicit interleaving relation (`Merge`).
-/

/-- Bytes of the memory-mapped file (`const char* mem` in the source). -/
abbrev Mem := List Char

/-- Read of `mem[i]`.  All reads performed by the program are in bounds,
so the default byte is never observable in the verified statements. -/
def memAt (mem : Mem) (i : Nat) : Char := mem.getD i ' '

/-- Counters of `collectCounts`: the five nucleotide counts plus the
running total. -/
structure Counts where
  G : Nat
  C : Nat
  A : Nat
  T : Nat
  N : Nat
  total : Nat
deriving Repr, DecidableEq

/-- Initial counter values (`size_t G = 0; ...` in `collectCounts`). -/
def Counts.zero : Counts := ⟨0, 0, 0, 0, 0, 0⟩

/-- One iteration of the `switch` in `collectCounts` (lines 137-158): the
matching counter and the total are incremented, any other byte falls
through the `switch` unchanged. -/
def countStep (c : Counts) (nucleotide : Char) : Counts :=
  if nucleotide = 'G' then { c with G := c.G + 1, total := c.total + 1 }
  else if nucleotide = 'C' then { c with C := c.C + 1, total := c.total + 1 }
  else if nucleotide = 'A' then { c with A := c.A + 1, total := c.total + 1 }
  else if nucleotide = 'T' then { c with T := c.T + 1, total := c.total + 1 }
  else if nucleotide = 'N' then { c with N := c.N + 1, total := c.total + 1 }
  else c

/-- Bytes visited by a loop `for (i = start; i < e; i++) ... mem[i]`. -/
def sliceBytes (mem : Mem) (start e : Nat) : List Char :=
  (List.range' start (e - start)).map (memAt mem)

/-- Embedding of `collectCounts` (lines 128-161): fold the counting step
over the bytes of `[start, e)`. -/
def collectCounts (mem : Mem) (start e : Nat) : Counts :=
  (sliceBytes mem start e).foldl countStep Counts.zero

/-- Result of `getDescription`: the header text accumulated in `name`, and
the index `ending` where the header ended.  The C++ declares `BigInt ending`
and assigns it only when a line break is found before `size`; when the scan
exhausts `[start, size)` without a line break the field is left
uninitialized, modelled here as `none`. -/
structure Description where
  desc : List Char
  ending : Option Nat
deriving Repr, DecidableEq

/-- Loop of `getDescription` (lines 107-113): scan from `i` toward `size`,
stopping at the first line break.  The loop condition `i < size` is
equivalent to `0 < size - i`, so the remaining byte count `r = size - i`
drives the recursion. -/
def getDescGo (mem : Mem) : (r i : Nat) → List Char → Description
  | 0, _, name => ⟨name, none⟩
  | r + 1, i, name =>
    if memAt mem i = '\n' then ⟨name, some i⟩
    else getDescGo mem r (i + 1) (name ++ [memAt mem i])

/-- Embedding of `getDescription` (lines 104-116). -/
def getDescription (mem : Mem) (start size : Nat) : Description :=
  getDescGo mem (size - start) start []

/-- Position of the first line-break byte at or after `start` and before
`size`, if any. -/
def firstLineBreak (mem : Mem) (start size : Nat) : Option Nat :=
  (List.range' start (size - start)).find? (fun j => memAt mem j = '\n')

/-- Embedding of `processChunks` (lines 209-218): the offsets `i` in
`[start, e)` with `mem[i] == '>'`, in scan order. -/
def processChunks (mem : Mem) (start e : Nat) : List Nat :=
  (List.range' start (e - start)).filter (fun i => memAt mem i = '>')

/-- Per-thread chunk length `BigInt chunkSize = size / numThreads`
(line 233); this is floor division. -/
def chunkSize (size w : Nat) : Nat := size / w

/-- Chunk start `BigInt start = chunk * chunkSize` (line 237). -/
def chunkStart (size w k : Nat) : Nat := k * chunkSize size w

/-- Chunk end (line 238): the last chunk ends at `size`, every other chunk
at `start + chunkSize`. -/
def chunkEnd (size w k : Nat) : Nat :=
  if k = w - 1 then size else chunkStart size w k + chunkSize size w

/-- Offsets collected by all scanning threads of `getIndicies`
(lines 236-241).  Each mutex-guarded `push_back` inserts one offset; the
final order of the shared vector depends on thread interleaving, but the
multiset does not, and the list is sorted immediately afterwards, so the
chunk-order concatenation is a faithful model. -/
def foundIndicies (mem : Mem) (size w : Nat) : List Nat :=
  (List.range w).flatMap (fun k => processChunks mem (chunkStart size w k) (chunkEnd size w k))

/-- Embedding of `getIndicies` (lines 229-261): collect the marker offsets,
append the sentinel `size` (line 251), and sort ascending (line 254,
`std::sort` with comparator `a < b`, modelled by a correct sort). -/
def getIndicies (mem : Mem) (size w : Nat) : List Nat :=
  List.insertionSort (fun a b => a ≤ b) (foundIndicies mem size w ++ [size])

/-- Positions of the marker byte in the whole file, in ascending order. -/
def markers (mem : Mem) (size : Nat) : List Nat :=
  (List.range size).filter (fun i => memAt mem i = '>')

/-- Work done for one record in `stageCollections` (lines 183-186): fetch
the description starting at boundary `b0`, then tally the body from the
description's ending to the next boundary `b1`.  When the description scan
found no line break, the C++ passes an uninitialized `des.ending` to
`collectCounts`; that undefined behaviour is modelled as `none`. -/
def processRecord (mem : Mem) (size b0 b1 : Nat) : Option (List Char × Counts) :=
  match (getDescription mem b0 size).ending with
  | some e => some ((getDescription mem b0 size).desc, collectCounts mem e b1)
  | none => none

/-- Boundary-list computation as reached from `readFile` (line 294).  The
division `size / numThreads` on line 233 is undefined behaviour when the
worker count is zero; the guard makes that explicit, returning `none`
exactly when the division-by-zero branch would be reached.  No code between
`std::stoi` (line 319) and this division checks the worker count. -/
def getIndiciesChecked (mem : Mem) (size w : Nat) : Option (List Nat) :=
  if w = 0 then none else some (getIndicies mem size w)

/-- Consecutive boundary pairs `(indicies[i], indicies[i+1])`, the records
of `stageCollections` (lines 175-188). -/
def recordsOf (idx : List Nat) : List (Nat × Nat) := idx.zip idx.tail

/-- End-to-end per-record results of `readFile` (lines 271-303): boundary
discovery followed by one `processRecord` per consecutive boundary pair. -/
def pipelineRecords (mem : Mem) (w : Nat) :
    Option (List (Option (List Char × Counts))) :=
  (getIndiciesChecked mem mem.length w).map
    (fun idx => (recordsOf idx).map (fun p => processRecord mem mem.length p.1 p.2))

/-- Record indices launched by one wave of `stageCollections`
(lines 176-189): `index = i + t` for `t < numThreads` with
`index < indicies.size() - 1`, so `min w (n1 - i)` of them, and
`threadsUsed` equals that number. -/
def waveIndices (w n1 i : Nat) : List Nat := List.range' i (min w (n1 - i))

/-- Wave loop of `stageCollections` (lines 175-194) with explicit fuel:
`n1` is `indicies.size() - 1`, `i` the outer loop counter, and each
iteration advances `i` by `threadsUsed = min w (n1 - i)`.  Exhausted fuel
(`none`) models non-termination of the C++ loop. -/
def wavesFuel : Nat → Nat → Nat → Nat → Option (List Nat)
  | 0, _, n1, i => if i < n1 then none else some []
  | f + 1, w, n1, i =>
    if i < n1 then
      (wavesFuel f w n1 (i + min w (n1 - i))).map
        (fun rest => waveIndices w n1 i ++ rest)
    else some []

/-- Usage text printed by `usage()` (line 51). -/
def usageMsg : String := "Usage: ./<EXECUTABLE> <PATH_TO_FASTA_FILE> <NUM_THREADS>\n"

/-- Diagnostic printed in the catch block of `main` (line 330). -/
def wrongMsg : String := "Something went wrong..."

/-- Diagnostic printed on `mmap` failure in `readFile` (line 286). -/
def mmapFailMsg : String := "mmap failed"

/-- Observable CLI outcome: the messages written to standard error in
order, the process exit status, and whether the file was processed. -/
structure CLIOutcome where
  stderrLines : List String
  exitCode : Int
  processed : Bool
deriving Repr, DecidableEq

/-- Control flow of `main` (lines 308-335) together with the `mmap` check
of `readFile` (lines 284-288).  `argsCount` is `argc`; `stoiResult` is
`none` when `std::stoi(argv[2])` throws; `whatMsg` is `e.what()` for that
exception; `mapOk` is false when `open`/`mmap` fails (a failed `open`
yields an invalid descriptor and `mmap` then fails).  On `mmap` failure the
program prints the diagnostic and calls `exit(-1)` before the catch block,
so no usage text is emitted on that path. -/
def mainModel (argsCount : Nat) (stoiResult : Option Int) (whatMsg : String)
    (mapOk : Bool) : CLIOutcome :=
  if argsCount ≠ 3 then ⟨[usageMsg], 0, false⟩
  else
    match stoiResult with
    | none => ⟨[usageMsg, wrongMsg, whatMsg], 0, false⟩
    | some _ => if mapOk then ⟨[], 0, true⟩ else ⟨[mmapFailMsg], -1, false⟩

/-- Formatted result block assembled by `printStats` into the local
`stringstream` (lines 79-87). -/
def blockString (desc : List Char) (G C A T N total : Nat) : String :=
  "\n" ++ String.mk desc ++ "\n\n"
    ++ "G: " ++ toString G ++ "\n"
    ++ "C: " ++ toString C ++ "\n"
    ++ "A: " ++ toString A ++ "\n"
    ++ "T: " ++ toString T ++ "\n"
    ++ "N: " ++ toString N ++ "\n"
    ++ "-----------------------------------"
    ++ "\nTotal: " ++ toString total ++ "\n"

/-- Writes one `printStats` call performs on the shared stream while
holding the mutex (lines 88-91): exactly one, and it is the whole block.
The block is assembled outside the critical section; the critical section
contains the single insertion `ofile << table.str()`. -/
def printStatsWrites (desc : List Char) (c : Counts) : List String :=
  [blockString desc c.G c.C c.A c.T c.N c.total]

/-- Interleavings of per-thread write sequences on the shared output
stream: at each step the scheduler picks any thread whose sequence is
nonempty and appends its next write.  `Merge ls out` holds when `out` is an
observable output of threads with write sequences `ls`. -/
inductive Merge : List (List String) → List String → Prop where
  | done : ∀ ls, (∀ l, l ∈ ls → l = []) → Merge ls []
  | step : ∀ (ls : List (List String)) (i : Nat) (h : i < ls.length)
      (x : String) (rest : List String) (out : List String),
      ls.get ⟨i, h⟩ = x :: rest → Merge (ls.set i rest) out →
      Merge ls (x :: out)

/-- Spec scenario file `">seq1\nGGCCAATT\n>seq2\nNNNN\n"`. -/
def demoMem : Mem := ">seq1\nGGCCAATT\n>seq2\nNNNN\n".toList

/-- Small mixed-content file used to instantiate the tally theorem. -/
def c1mem : Mem := "GgC\nATN>Zx".toList

/-- Two-record file used to instantiate the boundary-list theorem. -/
def c2mem : Mem := ">ab\n>cd".toList

/-- File whose first header has no line break before the next marker:
markers at offsets 0 and 2, first line break at offset 4. -/
def c3mem : Mem := ">a>b\n".toList

/-- File containing no header marker at all. -/
def c6mem : Mem := "hello\nworld".toList

lemma foldl_countStep_G (l : List Char) (c0 : Counts) :
    (l.foldl countStep c0).G = c0.G + l.count 'G' := by
  induction l generalizing c0 with
  | nil => simp
  | cons x xs ih =>
    simp only [List.foldl_cons, ih, List.count_cons]
    unfold countStep
    split_ifs with h1 h2 h3 h4 h5 <;> subst_eqs <;> simp_all <;> omega

lemma foldl_countStep_C (l : List Char) (c0 : Counts) :
    (l.foldl countStep c0).C = c0.C + l.count 'C' := by
  induction l generalizing c0 with
  | nil => simp
  | cons x xs ih =>
    simp only [List.foldl_cons, ih, List.count_cons]
    unfold countStep
    split_ifs with h1 h2 h3 h4 h5 <;> subst_eqs <;> simp_all <;> omega

lemma foldl_countStep_A (l : List Char) (c0 : Counts) :
    (l.foldl countStep c0).A = c0.A + l.count 'A' := by
  induction l generalizing c0 with
  | nil => simp
  | cons x xs ih =>
    simp only [List.foldl_cons, ih, List.count_cons]
    unfold countStep
    split_ifs with h1 h2 h3 h4 h5 <;> subst_eqs <;> simp_all <;> omega

lemma foldl_countStep_T (l : List Char) (c0 : Counts) :
    (l.foldl countStep c0).T = c0.T + l.count 'T' := by
  induction l generalizing c0 with
  | nil => simp
  | cons x xs ih =>
    simp only [List.foldl_cons, ih, List.count_cons]
    unfold countStep
    split_ifs with h1 h2 h3 h4 h5 <;> subst_eqs <;> simp_all <;> omega

lemma foldl_countStep_N (l : List Char) (c0 : Counts) :
    (l.foldl countStep c0).N = c0.N + l.count 'N' := by
  induction l generalizing c0 with
  | nil => simp
  | cons x xs ih =>
    simp only [List.foldl_cons, ih, List.count_cons]
    unfold countStep
    split_ifs with h1 h2 h3 h4 h5 <;> subst_eqs <;> simp_all <;> omega

lemma foldl_countStep_total (l : List Char) (c0 : Counts)
    (h : c0.total = c0.G + c0.C + c0.A + c0.T + c0.N) :
    (l.foldl countStep c0).total =
      (l.foldl countStep c0).G + (l.foldl countStep c0).C +
      (l.foldl countStep c0).A + (l.foldl countStep c0).T +
      (l.foldl countStep c0).N := by
  induction l generalizing c0 with
  | nil => exact h
  | cons x xs ih =>
    simp only [List.foldl_cons]
    apply ih
    unfold countStep
    split_ifs <;> simp_all <;> omega

lemma range'_map_memAt (mem : Mem) :
    ∀ (n start : Nat), start + n ≤ mem.length →
      (List.range' start n).map (memAt mem) = (mem.drop start).take n := by
  intro n
  induction n with
  | zero => intro start h; simp
  | succ n ih =>
    intro start h
    have hs : start < mem.length := by omega
    rw [List.range'_succ, List.map_cons, List.drop_eq_getElem_cons hs,
      List.take_succ_cons, ih (start + 1) (by omega)]
    congr 1
    simp [memAt, List.getElem?_eq_getElem hs]

lemma sliceBytes_eq_drop_take (mem : Mem) (start e : Nat)
    (h1 : start ≤ e) (h2 : e ≤ mem.length) :
    sliceBytes mem start e = (mem.drop start).take (e - start) := by
  unfold sliceBytes
  exact range'_map_memAt mem (e - start) start (by omega)

lemma flatMap_filter {α β : Type} (l : List β) (r : β → List α) (p : α → Bool) :
    l.flatMap (fun k => (r k).filter p) = (l.flatMap r).filter p := by
  induction l with
  | nil => simp
  | cons x xs ih => simp [List.flatMap_cons, List.filter_append, ih]

lemma chunks_init (size w : Nat) :
    ∀ m, m ≤ w - 1 →
      (List.range m).flatMap
          (fun k => List.range' (chunkStart size w k) (chunkEnd size w k - chunkStart size w k))
        = List.range' 0 (m * chunkSize size w) := by
  intro m
  induction m with
  | zero => intro _; simp
  | succ m ih =>
    intro h
    rw [List.range_succ, List.flatMap_append, ih (by omega)]
    have hk : m ≠ w - 1 := by omega
    have hend : chunkEnd size w m - chunkStart size w m = chunkSize size w := by
      rw [chunkEnd, if_neg hk, Nat.add_sub_cancel_left]
    rw [List.flatMap_cons, List.flatMap_nil, List.append_nil, hend, chunkStart]
    have := List.range'_append 0 (m * chunkSize size w) (chunkSize size w) 1
    simp only [Nat.zero_add, Nat.one_mul] at this
    rw [this]
    congr 1
    ring

lemma last_chunkStart_le (size w : Nat) (hw : 1 ≤ w) :
    (w - 1) * chunkSize size w ≤ size := by
  have h1 : (w - 1) * chunkSize size w ≤ w * chunkSize size w :=
    Nat.mul_le_mul_right _ (by omega)
  have h2 : w * chunkSize size w ≤ size := by
    rw [chunkSize, Nat.mul_comm]
    exact Nat.div_mul_le_self size w
  omega

lemma chunks_cover (size w : Nat) (hw : 1 ≤ w) :
    (List.range w).flatMap
        (fun k => List.range' (chunkStart size w k) (chunkEnd size w k - chunkStart size w k))
      = List.range size := by
  obtain ⟨v, rfl⟩ : ∃ v, w = v + 1 := ⟨w - 1, by omega⟩
  rw [List.range_succ, List.flatMap_append,
    chunks_init size (v + 1) v (by omega)]
  rw [List.flatMap_cons, List.flatMap_nil, List.append_nil]
  rw [chunkEnd, if_pos (show v = v + 1 - 1 by omega), chunkStart]
  have hle : v * chunkSize size (v + 1) ≤ size := by
    have := last_chunkStart_le size (v + 1) (by omega)
    simpa using this
  have := List.range'_append 0 (v * chunkSize size (v + 1))
    (size - v * chunkSize size (v + 1)) 1
  simp only [Nat.zero_add, Nat.one_mul] at this
  rw [this, List.range_eq_range']
  congr 1
  omega

lemma foundIndicies_eq_markers (mem : Mem) (size w : Nat) (hw : 1 ≤ w) :
    foundIndicies mem size w = markers mem size := by
  unfold foundIndicies markers processChunks
  rw [flatMap_filter, chunks_cover size w hw]

lemma markers_pairwise_lt (mem : Mem) (size : Nat) :
    (markers mem size).Pairwise (fun a b => a < b) :=
  (List.pairwise_lt_range size).filter _

lemma markers_mem_lt (mem : Mem) (size : Nat) :
    ∀ x ∈ markers mem size, x < size := by
  intro x hx
  have := List.mem_filter.mp hx
  exact List.mem_range.mp this.1

lemma markers_append_sentinel_pairwise (mem : Mem) (size : Nat) :
    (markers mem size ++ [size]).Pairwise (fun a b => a < b) := by
  rw [List.pairwise_append]
  refine ⟨markers_pairwise_lt mem size, by simp, ?_⟩
  intro a ha b hb
  rw [List.mem_singleton] at hb
  rw [hb]
  exact markers_mem_lt mem size a ha

lemma getIndicies_eq (mem : Mem) (size w : Nat) (hw : 1 ≤ w) :
    getIndicies mem size w = markers mem size ++ [size] := by
  unfold getIndicies
  rw [foundIndicies_eq_markers mem size w hw]
  have hperm := List.perm_insertionSort (fun a b : Nat => a ≤ b)
    (markers mem size ++ [size])
  have hs1 : List.Sorted (fun a b : Nat => a ≤ b)
      (List.insertionSort (fun a b => a ≤ b) (markers mem size ++ [size])) :=
    List.sorted_insertionSort (fun a b : Nat => a ≤ b) _
  have hs2 : List.Sorted (fun a b : Nat => a ≤ b) (markers mem size ++ [size]) :=
    (markers_append_sentinel_pairwise mem size).imp le_of_lt
  exact @List.eq_of_perm_of_sorted ℕ (fun a b => a ≤ b)
    (inferInstanceAs (IsAntisymm ℕ (fun a b => a ≤ b))) _ _ hperm hs1 hs2

lemma wavesFuel_complete :
    ∀ (f n1 i w : Nat), 1 ≤ w → n1 - i ≤ f →
      wavesFuel f w n1 i = some (List.range' i (n1 - i)) := by
  intro f
  induction f with
  | zero =>
    intro n1 i w _ hf
    have hi : ¬ i < n1 := by omega
    simp [wavesFuel, hi, show n1 - i = 0 by omega]
  | succ f ih =>
    intro n1 i w hw hf
    by_cases hi : i < n1
    · have hu1 : 1 ≤ min w (n1 - i) := by omega
      have hu2 : min w (n1 - i) ≤ n1 - i := Nat.min_le_right _ _
      rw [wavesFuel, if_pos hi, ih n1 (i + min w (n1 - i)) w hw (by omega)]
      simp only [Option.map_some']
      congr 1
      rw [waveIndices]
      have := List.range'_append i (min w (n1 - i)) (n1 - (i + min w (n1 - i))) 1
      simp only [Nat.one_mul] at this
      rw [this]
      congr 1
      omega
    · simp [wavesFuel, hi, show n1 - i = 0 by omega]

lemma wavesFuel_zero_workers :
    ∀ (f n1 i : Nat), i < n1 → wavesFuel f 0 n1 i = none := by
  intro f
  induction f with
  | zero => intro n1 i hi; simp [wavesFuel, hi]
  | succ f ih =>
    intro n1 i hi
    rw [wavesFuel, if_pos hi]
    simp [Nat.zero_min, ih n1 i hi]

lemma merge_perm_flatten {ls : List (List String)} {out : List String}
    (hm : Merge ls out) : out.Perm ls.flatten := by
  induction hm with
  | done ls h =>
    rw [List.flatten_eq_nil_iff.mpr h]
  | step ls i h x rest out hget hmerge ih =>
    have hsplit : ls = ls.take i ++ ls.get ⟨i, h⟩ :: ls.drop (i + 1) := by
      conv_lhs => rw [← List.take_append_drop i ls]
      congr 1
      rw [List.get_eq_getElem]
      exact List.drop_eq_getElem_cons h
    have hset : ls.set i rest = ls.take i ++ rest :: ls.drop (i + 1) :=
      List.set_eq_take_cons_drop rest h
    have h1 : ls.flatten =
        (ls.take i).flatten ++ (x :: (rest ++ (ls.drop (i + 1)).flatten)) := by
      conv_lhs => rw [hsplit]
      rw [List.flatten_append, List.flatten_cons, hget]
      simp
    have h2 : (ls.set i rest).flatten =
        (ls.take i).flatten ++ (rest ++ (ls.drop (i + 1)).flatten) := by
      rw [hset, List.flatten_append, List.flatten_cons]
    rw [h1]
    rw [h2] at ih
    exact (ih.cons x).trans List.perm_middle.symm

lemma flatten_map_singleton {α : Type} (l : List α) (f : α → String) :
    (l.map (fun r => [f r])).flatten = l.map f := by
  induction l with
  | nil => rfl
  | cons x xs ih => simp [ih]

lemma getDescGo_spec (mem : Mem) :
    ∀ (r i : Nat) (name : List Char),
      getDescGo mem r i name =
        match (List.range' i r).find? (fun j => memAt mem j = '\n') with
        | some e => ⟨name ++ (List.range' i (e - i)).map (memAt mem), some e⟩
        | none => ⟨name ++ (List.range' i r).map (memAt mem), none⟩ := by
  intro r
  induction r with
  | zero => intro i name; simp [getDescGo]
  | succ r ih =>
    intro i name
    rw [List.range'_succ, List.find?_cons]
    by_cases hnl : memAt mem i = '\n'
    · rw [getDescGo, if_pos hnl]
      simp [hnl]
    · rw [getDescGo, if_neg hnl, ih (i + 1) (name ++ [memAt mem i])]
      have hd : decide (memAt mem i = '\n') = false := by simp [hnl]
      simp only [hd]
      cases hfind : (List.range' (i + 1) r).find? (fun j => memAt mem j = '\n') with
      | none => simp
      | some e =>
        have he : i + 1 ≤ e := by
          have hmem := List.mem_of_find?_eq_some hfind
          exact (List.mem_range'_1.mp hmem).1
        have hei : e - i = (e - (i + 1)) + 1 := by omega
        simp [hei, List.range'_succ]

/-- C1: over any byte range `[start, e)` of the mapped file, each of the
counters G, C, A, T, N of `collectCounts` equals the number of occurrences
of the corresponding uppercase ASCII byte in that range; every other byte
contributes to no counter (the counts are exactly the per-symbol
occurrence counts), and `total` equals their sum. -/
theorem collectCounts_tally_correct (mem : Mem) (start e : Nat)
    (h1 : start ≤ e) (h2 : e ≤ mem.length) :
    (collectCounts mem start e).G = ((mem.drop start).take (e - start)).count 'G' ∧
    (collectCounts mem start e).C = ((mem.drop start).take (e - start)).count 'C' ∧
    (collectCounts mem start e).A = ((mem.drop start).take (e - start)).count 'A' ∧
    (collectCounts mem start e).T = ((mem.drop start).take (e - start)).count 'T' ∧
    (collectCounts mem start e).N = ((mem.drop start).take (e - start)).count 'N' ∧
    (collectCounts mem start e).total =
      (collectCounts mem start e).G + (collectCounts mem start e).C +
      (collectCounts mem start e).A + (collectCounts mem start e).T +
      (collectCounts mem start e).N := by
  unfold collectCounts
  rw [sliceBytes_eq_drop_take mem start e h1 h2]
  refine ⟨?_, ?_, ?_, ?_, ?_, ?_⟩
  · rw [foldl_countStep_G]; simp [Counts.zero]
  · rw [foldl_countStep_C]; simp [Counts.zero]
  · rw [foldl_countStep_A]; simp [Counts.zero]
  · rw [foldl_countStep_T]; simp [Counts.zero]
  · rw [foldl_countStep_N]; simp [Counts.zero]
  · exact foldl_countStep_total _ _ rfl

/-- Closed instance of the tally theorem on a concrete file. -/
theorem collectCounts_tally_correct_witness :
    (collectCounts c1mem 0 8).G = ((c1mem.drop 0).take 8).count 'G' ∧
    (collectCounts c1mem 0 8).C = ((c1mem.drop 0).take 8).count 'C' ∧
    (collectCounts c1mem 0 8).A = ((c1mem.drop 0).take 8).count 'A' ∧
    (collectCounts c1mem 0 8).T = ((c1mem.drop 0).take 8).count 'T' ∧
    (collectCounts c1mem 0 8).N = ((c1mem.drop 0).take 8).count 'N' ∧
    (collectCounts c1mem 0 8).total =
      (collectCounts c1mem 0 8).G + (collectCounts c1mem 0 8).C +
      (collectCounts c1mem 0 8).A + (collectCounts c1mem 0 8).T +
      (collectCounts c1mem 0 8).N :=
  collectCounts_tally_correct c1mem 0 8 (by decide) (by decide)

/-- C2: for any worker count `w ≥ 1` the boundary list produced by
`getIndicies` (sentinel appended, then sorted) is strictly ascending and
ends with `size`; for `size = 0` it is exactly `[0]`. -/
theorem getIndicies_strict_ascending (mem : Mem) (size w : Nat) (hw : 1 ≤ w) :
    List.Pairwise (fun a b => a < b) (getIndicies mem size w) ∧
    (getIndicies mem size w).getLast? = some size ∧
    (size = 0 → getIndicies mem size w = [0]) := by
  rw [getIndicies_eq mem size w hw]
  refine ⟨markers_append_sentinel_pairwise mem size, List.getLast?_concat _, ?_⟩
  intro h
  rw [h]
  rw [show markers mem 0 = [] by rfl]
  rfl

/-- Closed instance of the boundary-list theorem on a concrete file. -/
theorem getIndicies_strict_ascending_witness :
    List.Pairwise (fun a b => a < b) (getIndicies c2mem 7 2) ∧
    (getIndicies c2mem 7 2).getLast? = some 7 ∧
    (7 = 0 → getIndicies c2mem 7 2 = [0]) :=
  getIndicies_strict_ascending c2mem 7 2 (by decide)

/-- C3 counterexample: on the file `">a>b\n"` the boundary list for one
worker is `[0, 2, 5]`, yet the header of record 0 is `">a>b"` rather than
the bytes `[0, 2)` = `">a"` predicted by the claim, and the body start is
4 (the line break past the next boundary) rather than 2: `getDescription`
is not bounded by `list[i+1]`. -/
theorem getDescription_overruns_boundary :
    getIndicies c3mem 5 1 = [0, 2, 5] ∧
    (getDescription c3mem 0 5).desc = ">a>b".toList ∧
    (getDescription c3mem 0 5).desc ≠ ">a".toList ∧
    (getDescription c3mem 0 5).ending = some 4 ∧
    (getDescription c3mem 0 5).ending ≠ some 2 := by decide

/-- C3 (amended): the header scan runs from `list[i]` to the first
line-break byte bounded by the end of file `size`, not by `list[i+1]`: the
Header Text is the bytes from `start` up to, but not including, the first
line break before `size`; the Body Range handed to the tally starts at
that line-break position and ends at `b1 = list[i+1]`.  When no line break
exists before `size` the `ending` field is left uninitialized in the C++
(modelled `none`) and the record's tally reads an indeterminate range. -/
theorem getDescription_scan_spec (mem : Mem) (start size b1 : Nat) :
    (getDescription mem start size =
      match firstLineBreak mem start size with
      | some e => ⟨(List.range' start (e - start)).map (memAt mem), some e⟩
      | none => ⟨(List.range' start (size - start)).map (memAt mem), none⟩) ∧
    (processRecord mem size start b1 =
      match firstLineBreak mem start size with
      | some e =>
          some ((List.range' start (e - start)).map (memAt mem),
            collectCounts mem e b1)
      | none => none) := by
  have h1 : getDescription mem start size =
      match firstLineBreak mem start size with
      | some e => ⟨(List.range' start (e - start)).map (memAt mem), some e⟩
      | none => ⟨(List.range' start (size - start)).map (memAt mem), none⟩ := by
    rw [getDescription, getDescGo_spec mem (size - start) start [], firstLineBreak]
    cases (List.range' start (size - start)).find? (fun j => memAt mem j = '\n') with
    | some e => simp
    | none => simp
  refine ⟨h1, ?_⟩
  rw [processRecord, h1]
  cases firstLineBreak mem start size with
  | some e => simp
  | none => simp

/-- C4: per-record results are independent of the worker count: for any
two worker counts `w1, w2 ≥ 1`, the whole pipeline produces identical
per-record outcomes on the same file. -/
theorem pipeline_results_worker_invariant (mem : Mem) (w1 w2 : Nat)
    (h1 : 1 ≤ w1) (h2 : 1 ≤ w2) :
    pipelineRecords mem w1 = pipelineRecords mem w2 := by
  unfold pipelineRecords getIndiciesChecked
  rw [if_neg (by omega), if_neg (by omega),
    getIndicies_eq mem mem.length w1 h1, getIndicies_eq mem mem.length w2 h2]

/-- Closed instance of worker-count invariance on the spec scenario file. -/
theorem pipeline_results_worker_invariant_witness :
    pipelineRecords demoMem 1 = pipelineRecords demoMem 3 :=
  pipeline_results_worker_invariant demoMem 1 3 (by decide) (by decide)

/-- C5 counterexample: for a file of size 5 and 2 workers the first chunk
is `[0, 2)` of length 2, while the claimed length `⌈5/2⌉` is 3. -/
theorem chunk_size_not_ceiling :
    chunkEnd 5 2 0 - chunkStart 5 2 0 = 2 ∧
    (5 + 2 - 1) / 2 = 3 ∧
    chunkEnd 5 2 0 - chunkStart 5 2 0 ≠ (5 + 2 - 1) / 2 := by decide

/-- C5 (amended): the scanner partitions `[0, size)` into `w` contiguous
non-overlapping sub-ranges, every non-final one of size `⌊size/w⌋` (floor,
not ceiling), the last one ending at `size` and absorbing the remainder;
their concatenation enumerates every byte offset exactly once. -/
theorem chunks_partition_floor (size w : Nat) (hw : 1 ≤ w) :
    (List.range w).flatMap
        (fun k => List.range' (chunkStart size w k) (chunkEnd size w k - chunkStart size w k))
      = List.range size ∧
    (∀ k, k < w - 1 → chunkEnd size w k - chunkStart size w k = size / w) ∧
    chunkEnd size w (w - 1) = size := by
  refine ⟨chunks_cover size w hw, ?_, ?_⟩
  · intro k hk
    rw [chunkEnd, if_neg (by omega), Nat.add_sub_cancel_left]
    rfl
  · rw [chunkEnd, if_pos rfl]

/-- Closed instance of the partition theorem at size 5, two workers. -/
theorem chunks_partition_floor_witness :
    (List.range 2).flatMap
        (fun k => List.range' (chunkStart 5 2 k) (chunkEnd 5 2 k - chunkStart 5 2 k))
      = List.range 5 ∧
    (∀ k, k < 2 - 1 → chunkEnd 5 2 k - chunkStart 5 2 k = 5 / 2) ∧
    chunkEnd 5 2 (2 - 1) = 5 :=
  chunks_partition_floor 5 2 (by decide)

/-- C6: a file with no header-marker byte yields a boundary list of length
1 (< 2), and the pipeline processes zero records, producing empty
output. -/
theorem no_marker_zero_records (mem : Mem) (w : Nat) (hw : 1 ≤ w)
    (h : ∀ i, i < mem.length → ¬ memAt mem i = '>') :
    (getIndicies mem mem.length w).length < 2 ∧
    pipelineRecords mem w = some [] := by
  have hm : markers mem mem.length = [] := by
    rw [markers, List.filter_eq_nil_iff]
    intro a ha
    simp only [decide_eq_true_eq]
    exact h a (List.mem_range.mp ha)
  constructor
  · rw [getIndicies_eq mem mem.length w hw, hm]
    simp
  · rw [pipelineRecords, getIndiciesChecked, if_neg (by omega),
      getIndicies_eq mem mem.length w hw, hm]
    rfl

/-- Closed instance of the no-marker theorem on a concrete file. -/
theorem no_marker_zero_records_witness :
    (getIndicies c6mem c6mem.length 1).length < 2 ∧
    pipelineRecords c6mem 1 = some [] :=
  no_marker_zero_records c6mem 1 (by decide) (by decide)

/-- C7 counterexample: when the file cannot be mapped, the program prints
only the diagnostic `"mmap failed"` and exits with status -1; no usage
message appears on standard error, contradicting the claim that a mapping
failure prints a usage message. -/
theorem mmap_failure_prints_no_usage :
    mainModel 3 (some 4) "" false = ⟨[mmapFailMsg], -1, false⟩ ∧
    usageMsg ∉ (mainModel 3 (some 4) "" false).stderrLines := by decide

/-- C7 (amended): with a wrong argument count the program prints usage
text to standard error and exits 0 without processing; with a non-integer
worker count it prints the usage message plus the two diagnostics and
exits 0; on a file-open or mapping failure it prints only the diagnostic
`"mmap failed"` (no usage message) and exits with non-zero status -1;
otherwise it processes the file. -/
theorem mainModel_cases (stoiResult : Option Int) (whatMsg : String)
    (mapOk : Bool) (argsCount : Nat) :
    (argsCount ≠ 3 →
      mainModel argsCount stoiResult whatMsg mapOk = ⟨[usageMsg], 0, false⟩) ∧
    mainModel 3 none whatMsg mapOk = ⟨[usageMsg, wrongMsg, whatMsg], 0, false⟩ ∧
    (∀ k : Int, mainModel 3 (some k) whatMsg false = ⟨[mmapFailMsg], -1, false⟩) ∧
    (∀ k : Int, mainModel 3 (some k) whatMsg true = ⟨[], 0, true⟩) := by
  refine ⟨?_, ?_, ?_, ?_⟩
  · intro h
    simp [mainModel, h]
  · simp [mainModel]
  · intro k
    simp [mainModel]
  · intro k
    simp [mainModel]

/-- Closed instance of the CLI theorem: no arguments beyond the program
name (argc = 1) prints usage and exits 0. -/
theorem mainModel_cases_witness :
    mainModel 1 (some 2) "boom" true = ⟨[usageMsg], 0, false⟩ :=
  (mainModel_cases (some 2) "boom" true 1).1 (by decide)

/-- C8: each record's block reaches the shared stream as a single write
performed under the mutex, so every interleaving of the per-record write
sequences is a permutation of whole blocks: no block is ever split or
interleaved mid-block. -/
theorem merge_blocks_never_interleaved (records : List (List Char × Counts))
    (out : List String)
    (hm : Merge (records.map (fun r => printStatsWrites r.1 r.2)) out) :
    out.Perm (records.map
      (fun r => blockString r.1 r.2.G r.2.C r.2.A r.2.T r.2.N r.2.total)) := by
  have h1 := merge_perm_flatten hm
  rw [show (records.map (fun r => printStatsWrites r.1 r.2)) =
      records.map (fun r => [blockString r.1 r.2.G r.2.C r.2.A r.2.T r.2.N r.2.total])
      from rfl,
    flatten_map_singleton] at h1
  exact h1

/-- Closed instance of block atomicity: two records written in reverse
completion order still appear as two whole blocks. -/
theorem merge_blocks_never_interleaved_witness :
    List.Perm
      [blockString ">b".toList 0 0 0 0 2 2, blockString ">a".toList 1 0 0 0 0 1]
      ([((">a".toList : List Char), (⟨1, 0, 0, 0, 0, 1⟩ : Counts)),
        ((">b".toList : List Char), (⟨0, 0, 0, 0, 2, 2⟩ : Counts))].map
        (fun r => blockString r.1 r.2.G r.2.C r.2.A r.2.T r.2.N r.2.total)) :=
  merge_blocks_never_interleaved
    [((">a".toList : List Char), (⟨1, 0, 0, 0, 0, 1⟩ : Counts)),
     ((">b".toList : List Char), (⟨0, 0, 0, 0, 2, 2⟩ : Counts))]
    [blockString ">b".toList 0 0 0 0 2 2, blockString ">a".toList 1 0 0 0 0 1]
    (by
      refine Merge.step _ 1 (by simp) (blockString ">b".toList 0 0 0 0 2 2) [] _ rfl ?_
      refine Merge.step _ 0 (by simp) (blockString ">a".toList 1 0 0 0 0 1) [] _ rfl ?_
      exact Merge.done _ (by decide))

/-- C9: the chunk computation `size / numThreads` is guarded by nothing:
with worker count 0 the division-by-zero branch is reached (modelled as
`none`, since the C++ division by zero is undefined behaviour), while any
worker count `w ≥ 1` makes it well defined; the pipeline entered from
`main` with worker count 0 hits that branch. -/
theorem division_guard_worker_count (mem : Mem) (size : Nat) :
    getIndiciesChecked mem size 0 = none ∧
    (∀ w, 1 ≤ w → getIndiciesChecked mem size w = some (getIndicies mem size w)) ∧
    pipelineRecords mem 0 = none := by
  refine ⟨rfl, ?_, rfl⟩
  intro w hw
  rw [getIndiciesChecked, if_neg (by omega)]

/-- Closed instance: with one worker the boundary computation is defined. -/
theorem division_guard_worker_count_witness :
    getIndiciesChecked ([] : Mem) 7 1 = some (getIndicies [] 7 1) :=
  (division_guard_worker_count [] 7).2.1 1 (by decide)

/-- C10: with worker count `w ≥ 1` the wave loop of `stageCollections`
terminates (fuel `n1` suffices) and processes exactly the record indices
`0 .. n1 - 1`, each once, in order, because every wave launches at least
one unit; with worker count 0 and at least one record, no amount of fuel
completes the loop: `threadsUsed` stays 0 and the loop never advances. -/
theorem wave_loop_processes_all (w n1 : Nat) :
    (1 ≤ w → wavesFuel n1 w n1 0 = some (List.range n1)) ∧
    (1 ≤ n1 → ∀ fuel, wavesFuel fuel 0 n1 0 = none) := by
  constructor
  · intro hw
    rw [wavesFuel_complete n1 n1 0 w hw (by omega), List.range_eq_range']
    simp
  · intro hn fuel
    exact wavesFuel_zero_workers fuel n1 0 (by omega)

/-- Closed instance: three records with two workers are processed exactly
once each; with zero workers the loop never terminates. -/
theorem wave_loop_processes_all_witness :
    wavesFuel 3 2 3 0 = some (List.range 3) ∧
    (∀ fuel, wavesFuel fuel 0 3 0 = none) :=
  ⟨(wave_loop_processes_all 2 3).1 (by decide),
   fun fuel => (wave_loop_processes_all 0 3).2 (by decide) fuel⟩
